import Mathlib

/-!
Shallow embedding of the TD-learning agent of the 2584 framework
(`agent.h`, the n-step version with 32 base-31 tuple tables), together with
proofs checking the specification's claims about it.

`board.h` and `action.h` are not among the given sources: the agent uses the
board only through its cell accessor and its `slide` transition, so every
agent definition is parameterized by an arbitrary slide function, and the
action type is modelled from the spec. C++ `float` arithmetic is modelled
exactly over `ℚ`.
-/

set_option maxRecDepth 8000

namespace TD2584

/-- A board is a 4-by-4 grid of cell exponents; `b i` is the C++ `b(i)`.
The grid write `tile[i / 4][i % 4] = t` at linear position `i` is
`Function.update b i t`. -/
def Board : Type := Fin 16 → ℕ

instance : DecidableEq Board := inferInstanceAs (DecidableEq (Fin 16 → ℕ))

instance : Inhabited Board := ⟨fun _ => 0⟩

/-- Modelled from the spec: `board.h` is missing from the sources; the agent
uses the board only through `slide`, which maps a board and a direction to
the slid board and an integer reward, the sentinel `-1` meaning the
direction is illegal. Agent definitions take an arbitrary such transition. -/
def SlideFn : Type := Board → Fin 4 → Board × ℤ

/-- Modelled from the spec: `action.h` is missing from the sources. An action
is `slide dir` with a direction in `{0, 1, 2, 3}`, `place pos tile`, or the
null action signaling that no legal action exists. -/
inductive Action : Type where
  | slide (dir : Fin 4) : Action
  | place (pos : Fin 16) (tile : ℕ) : Action
  | null : Action
  deriving DecidableEq

/-- Modelled from the spec: `action::slide(op)` for an in-range direction is
the slide action of that direction; for the `-1` sentinel it is the null
action ("no legal action"). -/
def action_slide (op : ℤ) : Action :=
  if h : 0 ≤ op ∧ op < 4 then Action.slide ⟨op.toNat, by omega⟩ else Action.null

/-- The weight tables of the network: table `t` of the 32 tables maps a
feature index to a weight (C++ `net[t][index]`). -/
def Net : Type := Fin 32 → ℕ → ℚ

/-- The value of `std::numeric_limits<float>::max()`. -/
def flt_max : ℚ := 2 ^ 128 - 2 ^ 104

/-- C++ `float` to `int` conversion: truncation toward zero. -/
def float_to_int (q : ℚ) : ℤ := if q < 0 then ⌈q⌉ else ⌊q⌋

/-- `TD_player::extract_feature`: base-31 feature index of a 5-cell tuple. -/
def extract_feature (after : Board) (a b c d e : Fin 16) : ℕ :=
  after a * 31 * 31 * 31 * 31 + after b * 31 * 31 * 31 + after c * 31 * 31
    + after d * 31 + after e

/-- `TD_player::extract_feature2`: base-31 feature index of a 4-cell tuple. -/
def extract_feature2 (after : Board) (a b c d : Fin 16) : ℕ :=
  after a * 31 * 31 * 31 + after b * 31 * 31 + after c * 31 + after d

/-- The feature index used for table `t`: one arm per lookup line of
`TD_player::estimate_value` (`adjust_value` uses the same 32 tuples in the
same order). -/
def feature_index (t : ℕ) (after : Board) : ℕ :=
  match t with
  | 0 => extract_feature after 0 1 2 3 4
  | 1 => extract_feature after 5 6 7 10 11
  | 2 => extract_feature after 8 9 12 13 14
  | 3 => extract_feature after 0 1 2 3 7
  | 4 => extract_feature after 4 5 6 8 9
  | 5 => extract_feature after 10 11 13 14 15
  | 6 => extract_feature after 1 2 3 6 7
  | 7 => extract_feature after 4 5 8 9 10
  | 8 => extract_feature after 11 12 13 14 15
  | 9 => extract_feature after 0 1 2 4 5
  | 10 => extract_feature after 6 7 9 10 11
  | 11 => extract_feature after 8 12 13 14 15
  | 12 => extract_feature after 0 4 8 12 13
  | 13 => extract_feature after 1 2 5 6 9
  | 14 => extract_feature after 7 10 11 14 15
  | 15 => extract_feature after 0 1 4 8 12
  | 16 => extract_feature after 5 9 10 13 14
  | 17 => extract_feature after 2 3 6 7 11
  | 18 => extract_feature after 2 3 7 11 15
  | 19 => extract_feature after 6 9 10 13 14
  | 20 => extract_feature after 0 1 4 5 8
  | 21 => extract_feature after 3 7 11 14 15
  | 22 => extract_feature after 1 2 5 6 10
  | 23 => extract_feature after 4 8 9 12 13
  | 24 => extract_feature2 after 0 1 2 3
  | 25 => extract_feature2 after 4 5 6 7
  | 26 => extract_feature2 after 8 9 10 11
  | 27 => extract_feature2 after 12 13 14 15
  | 28 => extract_feature2 after 0 4 8 12
  | 29 => extract_feature2 after 1 5 9 13
  | 30 => extract_feature2 after 2 6 10 14
  | 31 => extract_feature2 after 3 7 11 15
  | _ => 0

/-- `TD_player::estimate_value`: the sum of the 32 table lookups. -/
def estimate_value (net : Net) (after : Board) : ℚ :=
  ∑ t : Fin 32, net t (feature_index t.val after)

/-- `TD_player::adjust_value`: the error `target - cur` is computed once from
the current estimate, and `alpha * err` is then accumulated into each of the
32 tables at its feature index. The `target` parameter is declared `int` in
the source. -/
def adjust_value (net : Net) (after : Board) (target : ℤ) (alpha : ℚ) : Net :=
  let cur := estimate_value net after
  let err := (target : ℚ) - cur
  let adjust := alpha * err
  fun t =>
    Function.update (net t) (feature_index t.val after)
      (net t (feature_index t.val after) + adjust)

/-- One recorded step of the episode history: `TD_player::step`. -/
structure Step : Type where
  reward : ℤ
  after : Board
  deriving DecidableEq

instance : Inhabited Step := ⟨⟨0, fun _ => 0⟩⟩

/-- The direction enumeration order of `TD_player::opcode`. -/
def opcode : List (Fin 4) := [0, 1, 2, 3]

/-- One iteration of the direction scan inside `expect_value`: a candidate
(reward, estimate) pair replaces the incumbent exactly when its
reward-plus-estimate sum strictly exceeds the incumbent's. -/
def best_step (best p : ℤ × ℚ) : ℤ × ℚ :=
  if (p.1 : ℚ) + p.2 > (best.1 : ℚ) + best.2 then p else best

/-- The direction scan of `TD_player::expect_value` for one tile placement:
starts from `(best_reward, best_value) = (-1, -FLT_MAX)`, skips illegal
directions, and keeps the best (reward, estimate) pair. -/
def best_pair (net : Net) (slide : SlideFn) (state : Board) : ℤ × ℚ :=
  opcode.foldl
    (fun best op =>
      if (slide state op).2 < 0 then best
      else best_step best ((slide state op).2, estimate_value net (slide state op).1))
    (-1, -flt_max)

/-- `TD_player::expect_value`: for every empty cell of the afterstate, place a
1-exponent and a 2-exponent tile there, scan the directions for the best
pair, and accumulate `0.9 * best_value1 / num_empty + 0.1 * best_value2 /
num_empty`. -/
def expect_value (net : Net) (slide : SlideFn) (after : Board) : ℚ :=
  let empty_tile := (List.finRange 16).filter (fun i => decide (after i = 0))
  let num_empty := empty_tile.length
  empty_tile.foldl
    (fun value i =>
      value
        + (9 / 10 : ℚ) * (best_pair net slide (Function.update after i 1)).2 / (num_empty : ℚ)
        + (1 / 10 : ℚ) * (best_pair net slide (Function.update after i 2)).2 / (num_empty : ℚ))
    0

/-- One iteration of the direction scan of `TD_player::take_action`; the
running quadruple is `(best_op, best_reward, best_value, best_after)`. -/
def ta_step (net : Net) (slide : SlideFn) (before : Board)
    (best : ℤ × ℤ × ℚ × Board) (op : Fin 4) : ℤ × ℤ × ℚ × Board :=
  if (slide before op).2 < 0 then best
  else
    if ((slide before op).2 : ℚ) + expect_value net slide (slide before op).1
        > (best.2.1 : ℚ) + best.2.2.1 then
      ((op.val : ℤ), (slide before op).2, expect_value net slide (slide before op).1,
        (slide before op).1)
    else best

/-- The direction scan of `take_action`, initialized to
`(-1, -1, -FLT_MAX, board())`; a default-constructed board is all-empty
(spec: boards are created fresh with all cells 0). -/
def ta_fold (net : Net) (slide : SlideFn) (before : Board) : ℤ × ℤ × ℚ × Board :=
  opcode.foldl (ta_step net slide before) (-1, -1, -flt_max, fun _ => 0)

/-- `TD_player::take_action`: scans the four directions, pushes the chosen
(reward, afterstate) step onto the history when some direction was chosen,
and returns `action::slide(best_op)`. -/
def take_action (net : Net) (slide : SlideFn) (history : List Step) (before : Board) :
    Action × List Step :=
  let best := ta_fold net slide before
  (action_slide best.1,
    if best.1 ≠ -1 then history ++ [⟨best.2.1, best.2.2.2⟩] else history)

/-- `TD_player::open_episode`: clears the history. -/
def open_episode (_flag : List Step) : List Step := []

/-- The inner loop of `close_episode`:
`for (j = 1; j <= n_step; j++) { if (i + j >= size) break; total += history[i+j].reward; }`,
with `fuel` the remaining iteration count and `idx` the current `i + j`. -/
def total_reward_go (history : List Step) : ℕ → ℕ → ℤ → ℤ
  | 0, _, total => total
  | fuel + 1, idx, total =>
    if history.length ≤ idx then total
    else total_reward_go history fuel (idx + 1) (total + (history.getD idx default).reward)

/-- The value `total_reward` computed by the inner loop at outer index `i`. -/
def total_reward_code (history : List Step) (n_step i : ℕ) : ℤ :=
  total_reward_go history n_step (i + 1) 0

/-- The body of the outer loop of `close_episode` at index `i`: adjust toward
the summed rewards alone when `i + n_step` runs past the history, otherwise
toward `total_reward + estimate_value(history[i + n_step].after)` — a float
expression truncated to `int` by the `target` parameter of `adjust_value`. -/
def step_adjust (history : List Step) (alpha : ℚ) (n_step i : ℕ) (net : Net) : Net :=
  let total := total_reward_code history n_step i
  if history.length ≤ i + n_step then
    adjust_value net (history.getD i default).after total alpha
  else
    adjust_value net (history.getD i default).after
      (float_to_int ((total : ℚ)
        + estimate_value net (history.getD (i + n_step) default).after))
      alpha

/-- The outer loop of `close_episode`: `for (i = size - 2; i >= 0; i--)`,
`k` being the number of indices still to process (index `k - 1` is next). -/
def close_loop (history : List Step) (alpha : ℚ) (n_step : ℕ) : ℕ → Net → Net
  | 0, net => net
  | k + 1, net => close_loop history alpha n_step k (step_adjust history alpha n_step k net)

/-- `TD_player::close_episode` (the n-step version): a no-op on an empty
history or a zero learning rate; otherwise the terminal afterstate is
adjusted toward 0 and the loop walks indices `size - 2` down to `0`. The
configured horizon `n` is a nonnegative integer, 1 by default. -/
def close_episode (net : Net) (history : List Step) (alpha : ℚ) (n_step : ℕ) : Net :=
  if history.length = 0 then net
  else if alpha = 0 then net
  else
    close_loop history alpha n_step (history.length - 1)
      (adjust_value net ((history.getLast?).getD default).after 0 alpha)

/-- `rndenv::take_action`: the shuffled `space` array is modelled by an
arbitrary list `perm` of positions and the draw `popup(engine)` by `pv`; the
first empty position in `perm` receives a tile of exponent 1 when `pv` is
nonzero (probability 0.9 in the program) and exponent 2 otherwise; a board
with no empty position yields the null action. -/
def rndenv_take_action : List (Fin 16) → ℕ → Board → Action
  | [], _, _ => Action.null
  | pos :: rest, pv, after =>
    if after pos ≠ 0 then rndenv_take_action rest pv after
    else Action.place pos (if pv ≠ 0 then 1 else 2)

/-- The reward-plus-estimate sum of a (reward, value) pair. -/
def pair_sum (p : ℤ × ℚ) : ℚ := (p.1 : ℚ) + p.2

/-- The score of a direction in `take_action`: immediate reward plus the
expected value of its afterstate. -/
def dir_score (net : Net) (slide : SlideFn) (before : Board) (op : Fin 4) : ℚ :=
  ((slide before op).2 : ℚ) + expect_value net slide (slide before op).1

/-- The quadruple `take_action` stores for a chosen direction. -/
def dir_quad (net : Net) (slide : SlideFn) (before : Board) (op : Fin 4) :
    ℤ × ℤ × ℚ × Board :=
  ((op.val : ℤ), (slide before op).2, expect_value net slide (slide before op).1,
    (slide before op).1)

/-- The legal (reward, estimate) pairs of the four directions from `state`,
in enumeration order. -/
def legal_pairs (net : Net) (slide : SlideFn) (state : Board) : List (ℤ × ℚ) :=
  (opcode.filter (fun op => decide (¬ (slide state op).2 < 0))).map
    (fun op => ((slide state op).2, estimate_value net (slide state op).1))

/-- Selection of the best pair over the legal pairs: the strict-improvement
scan, from the sentinel `(-1, -FLT_MAX)`. -/
def spec_best (l : List (ℤ × ℚ)) : ℤ × ℚ := l.foldl best_step (-1, -flt_max)

/-- The per-placement value as claim C1 reads it: the maximum of
reward-plus-estimate over the legal directions (`-FLT_MAX` when none). -/
def claimed_best (l : List (ℤ × ℚ)) : ℚ :=
  match l with
  | [] => -flt_max
  | p :: ps => (ps.map (fun q => (q.1 : ℚ) + q.2)).foldl max ((p.1 : ℚ) + p.2)

/-- The expected value exactly as claim C1 states it: the accumulated
per-placement values are the maxima of reward-plus-estimate. -/
def claimed_expect_value (net : Net) (slide : SlideFn) (after : Board) : ℚ :=
  let empty_tile := (List.finRange 16).filter (fun i => decide (after i = 0))
  let num_empty := empty_tile.length
  (empty_tile.map
    (fun i =>
      ((9 / 10 : ℚ) * claimed_best (legal_pairs net slide (Function.update after i 1))
        + (1 / 10 : ℚ) * claimed_best (legal_pairs net slide (Function.update after i 2)))
      / (num_empty : ℚ))).sum

/-- The n-step target of claim C2 for step `i`, in amended form: the rewards
recorded at steps `i+1 … i+n` (truncated at the end of the history), plus —
exactly when step `i+n` exists — the current estimate of its afterstate, the
bootstrapped sum being truncated toward zero to an integer. -/
def spec_target (net : Net) (history : List Step) (n i : ℕ) : ℤ :=
  let rewards := (((history.drop (i + 1)).take n).map Step.reward).sum
  if i + n < history.length then
    float_to_int ((rewards : ℚ)
      + estimate_value net ((history.getD (i + n) default).after))
  else rewards

/-- The backward pass as claim C2 describes it (amended form): the terminal
step toward 0, then every earlier index, most recent first, toward its
n-step target computed from the weights current at that point. -/
def spec_close (net : Net) (history : List Step) (alpha : ℚ) (n : ℕ) : Net :=
  if history = [] ∨ alpha = 0 then net
  else
    ((List.range (history.length - 1)).reverse).foldl
      (fun acc i =>
        adjust_value acc (history.getD i default).after (spec_target acc history n i) alpha)
      (adjust_value net ((history.getLast?).getD default).after 0 alpha)

/-- An adjustment with an exact rational target, as claim C2 as written would
require of the bootstrapped case. -/
def adjust_valueQ (net : Net) (after : Board) (target : ℚ) (alpha : ℚ) : Net :=
  let cur := estimate_value net after
  let err := target - cur
  let adjust := alpha * err
  fun t =>
    Function.update (net t) (feature_index t.val after)
      (net t (feature_index t.val after) + adjust)

/-- The n-step target of claim C2 exactly as written: the bootstrapped target
is the exact sum `rewards + estimate`, with no integer truncation. -/
def claimed_targetQ (net : Net) (history : List Step) (n i : ℕ) : ℚ :=
  let rewards := (((history.drop (i + 1)).take n).map Step.reward).sum
  if i + n < history.length then
    (rewards : ℚ) + estimate_value net ((history.getD (i + n) default).after)
  else (rewards : ℚ)

/-- The backward pass with the exact untruncated targets of claim C2 as
written. -/
def claimed_close (net : Net) (history : List Step) (alpha : ℚ) (n : ℕ) : Net :=
  if history = [] ∨ alpha = 0 then net
  else
    ((List.range (history.length - 1)).reverse).foldl
      (fun acc i =>
        adjust_valueQ acc (history.getD i default).after (claimed_targetQ acc history n i) alpha)
      (adjust_value net ((history.getLast?).getD default).after 0 alpha)

/-- Test fixture: the all-empty board. -/
def bz : Board := fun _ => 0

/-- Test fixture: a board whose only empty cell is cell 0. -/
def b0 : Board := fun i => if i = 0 then 0 else 1

/-- Test fixture: all-zero weights. -/
def net0 : Net := fun _ _ => 0

/-- Test fixture: all-one weights. -/
def net1 : Net := fun _ _ => 1

/-- Test fixture slide function: direction 0 always legal with reward 5 and
no board change, the other directions illegal. -/
def cslide : SlideFn := fun b op => (b, if op = 0 then 5 else -1)

/-- Test fixture slide function: every direction illegal. -/
def cslide_none : SlideFn := fun b _ => (b, -1)

/-- Test fixture: a two-step history on the all-empty board. -/
def hist2 : List Step := [⟨0, bz⟩, ⟨0, bz⟩]

/-! ## Helper lemmas -/

lemma estimate_net0 (x : Board) : estimate_value net0 x = 0 := by
  simp [estimate_value, net0]

lemma estimate_net1 (x : Board) : estimate_value net1 x = 32 := by
  simp [estimate_value, net1]

lemma adjust_value_at (net : Net) (after : Board) (target : ℤ) (alpha : ℚ) (t : Fin 32) :
    (adjust_value net after target alpha) t (feature_index t.val after)
      = net t (feature_index t.val after)
        + alpha * ((target : ℚ) - estimate_value net after) := by
  simp [adjust_value, Function.update_same]

lemma adjust_valueQ_at (net : Net) (after : Board) (target : ℚ) (alpha : ℚ) (t : Fin 32) :
    (adjust_valueQ net after target alpha) t (feature_index t.val after)
      = net t (feature_index t.val after)
        + alpha * (target - estimate_value net after) := by
  simp [adjust_valueQ, Function.update_same]

lemma total_reward_go_eq (history : List Step) :
    ∀ (fuel idx : ℕ) (acc : ℤ),
      total_reward_go history fuel idx acc
        = acc + (((history.drop idx).take fuel).map Step.reward).sum := by
  intro fuel
  induction fuel with
  | zero =>
    intro idx acc
    simp [total_reward_go]
  | succ f ih =>
    intro idx acc
    rw [total_reward_go]
    by_cases h : history.length ≤ idx
    · rw [if_pos h, List.drop_eq_nil_of_le h]
      simp
    · rw [if_neg h]
      push_neg at h
      rw [ih (idx + 1) (acc + (history.getD idx default).reward)]
      rw [List.drop_eq_getElem_cons h, List.take_succ_cons, List.map_cons, List.sum_cons]
      rw [List.getD_eq_getElem history default h]
      ring

lemma foldl_skip_filter {α β γ : Type} (p : α → Prop) [DecidablePred p] (g : α → β)
    (step : γ → β → γ) :
    ∀ (l : List α) (init : γ),
      l.foldl (fun b a => if p a then b else step b (g a)) init
        = ((l.filter (fun a => decide (¬ p a))).map g).foldl step init := by
  intro l
  induction l with
  | nil => intro init; rfl
  | cons a t ih =>
    intro init
    by_cases h : p a
    · rw [List.foldl_cons, if_pos h]
      have hfa : (a :: t).filter (fun x => decide (¬ p x))
          = t.filter (fun x => decide (¬ p x)) := by
        simp [List.filter_cons, h]
      rw [hfa]
      exact ih init
    · rw [List.foldl_cons, if_neg h]
      have hfa : (a :: t).filter (fun x => decide (¬ p x))
          = a :: t.filter (fun x => decide (¬ p x)) := by
        simp [List.filter_cons, h]
      rw [hfa, List.map_cons, List.foldl_cons]
      exact ih (step init (g a))

lemma best_pair_eq_spec (net : Net) (slide : SlideFn) (state : Board) :
    best_pair net slide state = spec_best (legal_pairs net slide state) := by
  rw [best_pair, spec_best, legal_pairs]
  exact foldl_skip_filter (fun op => (slide state op).2 < 0)
    (fun op => ((slide state op).2, estimate_value net (slide state op).1))
    best_step opcode (-1, -flt_max)

lemma best_step_sum (b p : ℤ × ℚ) :
    pair_sum (best_step b p) = max (pair_sum b) (pair_sum p) := by
  rw [best_step]
  split_ifs with h
  · exact (max_eq_right (le_of_lt h)).symm
  · exact (max_eq_left (not_lt.mp h)).symm

lemma foldl_best_init_le :
    ∀ (l : List (ℤ × ℚ)) (init : ℤ × ℚ),
      pair_sum init ≤ pair_sum (l.foldl best_step init) := by
  intro l
  induction l with
  | nil => intro init; exact le_refl _
  | cons a t ih =>
    intro init
    rw [List.foldl_cons]
    calc pair_sum init ≤ pair_sum (best_step init a) := by
          rw [best_step_sum]; exact le_max_left _ _
      _ ≤ pair_sum (t.foldl best_step (best_step init a)) := ih _

lemma foldl_best_ub :
    ∀ (l : List (ℤ × ℚ)) (init : ℤ × ℚ) (p : ℤ × ℚ), p ∈ l →
      pair_sum p ≤ pair_sum (l.foldl best_step init) := by
  intro l
  induction l with
  | nil => intro init p hp; cases hp
  | cons a t ih =>
    intro init p hp
    rw [List.foldl_cons]
    rcases List.mem_cons.mp hp with rfl | hm
    · calc pair_sum p ≤ pair_sum (best_step init p) := by
            rw [best_step_sum]; exact le_max_right _ _
        _ ≤ pair_sum (t.foldl best_step (best_step init p)) := foldl_best_init_le t _
    · exact ih _ p hm

lemma foldl_best_mem :
    ∀ (l : List (ℤ × ℚ)) (init : ℤ × ℚ),
      l.foldl best_step init = init ∨ l.foldl best_step init ∈ l := by
  intro l
  induction l with
  | nil => intro init; exact Or.inl rfl
  | cons a t ih =>
    intro init
    rw [List.foldl_cons]
    rcases ih (best_step init a) with h | h
    · rw [h, best_step]
      split_ifs
      · exact Or.inr (List.mem_cons_self _ _)
      · exact Or.inl rfl
    · exact Or.inr (List.mem_cons_of_mem _ h)

lemma spec_best_mem (l : List (ℤ × ℚ)) (hne : l ≠ [])
    (hgt : ∀ p ∈ l, pair_sum (-1, -flt_max) < pair_sum p) :
    spec_best l ∈ l := by
  rcases foldl_best_mem l (-1, -flt_max) with h | h
  · exfalso
    obtain ⟨p, hp⟩ := List.exists_mem_of_ne_nil l hne
    have h1 := foldl_best_ub l (-1, -flt_max) p hp
    rw [h] at h1
    exact absurd h1 (not_le.mpr (hgt p hp))
  · rw [spec_best]
    exact h

lemma cslide_eval0 (x : Board) : cslide x 0 = (x, 5) := rfl

lemma cslide_eval1 (x : Board) : cslide x 1 = (x, -1) := rfl

lemma cslide_eval2 (x : Board) : cslide x 2 = (x, -1) := rfl

lemma cslide_eval3 (x : Board) : cslide x 3 = (x, -1) := rfl

lemma best_pair_net0_cslide (x : Board) : best_pair net0 cslide x = (5, 0) := by
  rw [best_pair, opcode]
  rw [List.foldl_cons, List.foldl_cons, List.foldl_cons, List.foldl_cons, List.foldl_nil]
  simp only [cslide_eval0, cslide_eval1, cslide_eval2, cslide_eval3, estimate_net0]
  norm_num [best_step, flt_max]

lemma b0_empty_list :
    (List.finRange 16).filter (fun i => decide (b0 i = 0)) = [(0 : Fin 16)] := by
  decide

lemma expect_net0_cslide_b0 : expect_value net0 cslide b0 = 0 := by
  simp only [expect_value, b0_empty_list, List.foldl_cons, List.foldl_nil,
    List.length_cons, List.length_nil, best_pair_net0_cslide]
  norm_num

lemma legal_pairs_net0_cslide (x : Board) : legal_pairs net0 cslide x = [(5, 0)] := by
  rw [legal_pairs, opcode]
  have hfilt : ([0, 1, 2, 3] : List (Fin 4)).filter
      (fun op => decide (¬ (cslide x op).2 < 0)) = [0] := rfl
  rw [hfilt, List.map_cons, List.map_nil, cslide_eval0, estimate_net0]

lemma claimed_expect_net0_cslide_b0 : claimed_expect_value net0 cslide b0 = 5 := by
  simp only [claimed_expect_value, b0_empty_list, List.map_cons, List.map_nil,
    List.sum_cons, List.sum_nil, List.length_cons, List.length_nil,
    legal_pairs_net0_cslide, claimed_best]
  norm_num

lemma foldl_add_map_sum {α : Type} (f : α → ℚ) :
    ∀ (l : List α) (c : ℚ), l.foldl (fun v i => v + f i) c = c + (l.map f).sum := by
  intro l
  induction l with
  | nil => intro c; simp
  | cons a t ih =>
    intro c
    rw [List.foldl_cons, List.map_cons, List.sum_cons, ih]
    ring

lemma expect_value_eq_sum (net : Net) (slide : SlideFn) (after : Board) :
    expect_value net slide after
      = (((List.finRange 16).filter (fun i => decide (after i = 0))).map
          (fun i =>
            ((9 / 10 : ℚ) * (spec_best (legal_pairs net slide (Function.update after i 1))).2
              + (1 / 10 : ℚ)
                  * (spec_best (legal_pairs net slide (Function.update after i 2))).2)
            / ((((List.finRange 16).filter (fun i => decide (after i = 0))).length : ℚ)))).sum := by
  have key : ∀ (E : List (Fin 16)) (n : ℚ),
      E.foldl (fun value i =>
        value + (9 / 10 : ℚ) * (best_pair net slide (Function.update after i 1)).2 / n
              + (1 / 10 : ℚ) * (best_pair net slide (Function.update after i 2)).2 / n) 0
      = (E.map (fun i =>
          ((9 / 10 : ℚ) * (spec_best (legal_pairs net slide (Function.update after i 1))).2
            + (1 / 10 : ℚ) * (spec_best (legal_pairs net slide (Function.update after i 2))).2)
          / n)).sum := by
    intro E n
    have h1 : (fun (value : ℚ) (i : Fin 16) =>
          value + (9 / 10 : ℚ) * (best_pair net slide (Function.update after i 1)).2 / n
                + (1 / 10 : ℚ) * (best_pair net slide (Function.update after i 2)).2 / n)
        = fun value i =>
            value
              + ((9 / 10 : ℚ) * (spec_best (legal_pairs net slide (Function.update after i 1))).2
                  + (1 / 10 : ℚ)
                      * (spec_best (legal_pairs net slide (Function.update after i 2))).2)
                / n := by
      funext v i
      rw [best_pair_eq_spec, best_pair_eq_spec]
      ring
    rw [h1, foldl_add_map_sum, zero_add]
  exact key ((List.finRange 16).filter (fun i => decide (after i = 0)))
    ((((List.finRange 16).filter (fun i => decide (after i = 0))).length : ℚ))

lemma ta_quad_sum (net : Net) (slide : SlideFn) (before : Board) (op : Fin 4) :
    ((dir_quad net slide before op).2.1 : ℚ) + (dir_quad net slide before op).2.2.1
      = dir_score net slide before op := by
  rw [dir_quad, dir_score]

lemma ta_fold_cases (net : Net) (slide : SlideFn) (before : Board) :
    ∀ (l : List (Fin 4)) (init : ℤ × ℤ × ℚ × Board),
      (l.foldl (ta_step net slide before) init = init
        ∧ ∀ op ∈ l, ¬ (slide before op).2 < 0 →
            dir_score net slide before op ≤ (init.2.1 : ℚ) + init.2.2.1)
      ∨ (∃ op l1 l2, l = l1 ++ op :: l2
          ∧ ¬ (slide before op).2 < 0
          ∧ l.foldl (ta_step net slide before) init = dir_quad net slide before op
          ∧ (init.2.1 : ℚ) + init.2.2.1 < dir_score net slide before op
          ∧ (∀ op2 ∈ l1, ¬ (slide before op2).2 < 0 →
              dir_score net slide before op2 < dir_score net slide before op)
          ∧ (∀ op2 ∈ l2, ¬ (slide before op2).2 < 0 →
              dir_score net slide before op2 ≤ dir_score net slide before op)) := by
  intro l
  induction l with
  | nil =>
    intro init
    left
    exact ⟨rfl, by simp⟩
  | cons a t ih =>
    intro init
    by_cases hleg : (slide before a).2 < 0
    · have hstep : ta_step net slide before init a = init := by
        rw [ta_step, if_pos hleg]
      rcases ih init with ⟨heq, hub⟩ | ⟨op, l1, l2, hdec, hlegop, heq, hgt, hpre, hpost⟩
      · left
        refine ⟨?_, ?_⟩
        · rw [List.foldl_cons, hstep]; exact heq
        · intro op2 hop2 h2
          rcases List.mem_cons.mp hop2 with rfl | hm
          · exact absurd hleg h2
          · exact hub op2 hm h2
      · right
        refine ⟨op, a :: l1, l2, by rw [hdec]; rfl, hlegop, ?_, hgt, ?_, hpost⟩
        · rw [List.foldl_cons, hstep]; exact heq
        · intro op2 hop2 h2
          rcases List.mem_cons.mp hop2 with rfl | hm
          · exact absurd hleg h2
          · exact hpre op2 hm h2
    · by_cases himp : ((slide before a).2 : ℚ) + expect_value net slide (slide before a).1
          > (init.2.1 : ℚ) + init.2.2.1
      · have hstep : ta_step net slide before init a = dir_quad net slide before a := by
          rw [ta_step, if_neg hleg, if_pos himp, dir_quad]
        have hs : ((dir_quad net slide before a).2.1 : ℚ)
            + (dir_quad net slide before a).2.2.1 = dir_score net slide before a :=
          ta_quad_sum net slide before a
        have hscore : (init.2.1 : ℚ) + init.2.2.1 < dir_score net slide before a := by
          rw [dir_score]; exact himp
        rcases ih (dir_quad net slide before a) with ⟨heq, hub⟩ |
            ⟨op, l1, l2, hdec, hlegop, heq, hgt, hpre, hpost⟩
        · right
          refine ⟨a, [], t, rfl, hleg, ?_, hscore, by simp, ?_⟩
          · rw [List.foldl_cons, hstep]; exact heq
          · intro op2 hop2 h2
            have h3 := hub op2 hop2 h2
            rw [hs] at h3
            exact h3
        · right
          have hgt2 : dir_score net slide before a < dir_score net slide before op := by
            rw [← hs]; exact hgt
          refine ⟨op, a :: l1, l2, by rw [hdec]; rfl, hlegop, ?_,
            lt_trans hscore hgt2, ?_, hpost⟩
          · rw [List.foldl_cons, hstep]; exact heq
          · intro op2 hop2 h2
            rcases List.mem_cons.mp hop2 with rfl | hm
            · exact hgt2
            · exact hpre op2 hm h2
      · have hstep : ta_step net slide before init a = init := by
          rw [ta_step, if_neg hleg, if_neg himp]
        have hle : dir_score net slide before a ≤ (init.2.1 : ℚ) + init.2.2.1 := by
          rw [dir_score]; exact not_lt.mp himp
        rcases ih init with ⟨heq, hub⟩ | ⟨op, l1, l2, hdec, hlegop, heq, hgt, hpre, hpost⟩
        · left
          refine ⟨?_, ?_⟩
          · rw [List.foldl_cons, hstep]; exact heq
          · intro op2 hop2 h2
            rcases List.mem_cons.mp hop2 with rfl | hm
            · exact hle
            · exact hub op2 hm h2
        · right
          refine ⟨op, a :: l1, l2, by rw [hdec]; rfl, hlegop, ?_, hgt, ?_, hpost⟩
          · rw [List.foldl_cons, hstep]; exact heq
          · intro op2 hop2 h2
            rcases List.mem_cons.mp hop2 with rfl | hm
            · exact lt_of_le_of_lt hle hgt
            · exact hpre op2 hm h2

lemma mem_opcode (op : Fin 4) : op ∈ opcode := by
  fin_cases op <;> decide

lemma opcode_decomp (op : Fin 4) (l1 l2 : List (Fin 4)) (h : opcode = l1 ++ op :: l2) :
    (∀ op2 ∈ l1, op2 < op) ∧ (∀ op2 ∈ l2, op < op2) := by
  rw [opcode] at h
  rcases l1 with _ | ⟨a, _ | ⟨b, _ | ⟨c, _ | ⟨d, rest⟩⟩⟩⟩
  · rw [List.nil_append] at h
    injection h with h1 h2
    subst h1
    subst h2
    exact ⟨by decide, by decide⟩
  · rw [List.cons_append, List.nil_append] at h
    injection h with h1 h2
    injection h2 with h3 h4
    subst h1
    subst h3
    subst h4
    exact ⟨by decide, by decide⟩
  · rw [List.cons_append, List.cons_append, List.nil_append] at h
    injection h with h1 h2
    injection h2 with h3 h4
    injection h4 with h5 h6
    subst h1
    subst h3
    subst h5
    subst h6
    exact ⟨by decide, by decide⟩
  · rw [List.cons_append, List.cons_append, List.cons_append, List.nil_append] at h
    injection h with h1 h2
    injection h2 with h3 h4
    injection h4 with h5 h6
    injection h6 with h7 h8
    subst h1
    subst h3
    subst h5
    subst h7
    subst h8
    exact ⟨by decide, by decide⟩
  · exfalso
    rw [List.cons_append, List.cons_append, List.cons_append, List.cons_append] at h
    injection h with h1 h2
    injection h2 with h3 h4
    injection h4 with h5 h6
    injection h6 with h7 h8
    have hlen := congrArg List.length h8
    simp at hlen
    omega

lemma action_slide_fin (op : Fin 4) : action_slide ((op.val : ℕ) : ℤ) = Action.slide op := by
  have h : (0 : ℤ) ≤ (op.val : ℤ) ∧ (op.val : ℤ) < 4 :=
    ⟨Int.ofNat_nonneg _, by exact_mod_cast op.isLt⟩
  rw [action_slide, dif_pos h]
  exact congrArg Action.slide (Fin.ext (by simp))

lemma take_action_eq (net : Net) (slide : SlideFn) (history : List Step) (before : Board) :
    take_action net slide history before
      = (action_slide (ta_fold net slide before).1,
          if (ta_fold net slide before).1 ≠ -1 then
            history ++ [⟨(ta_fold net slide before).2.1, (ta_fold net slide before).2.2.2⟩]
          else history) := rfl

lemma take_action_hist_cases (net : Net) (slide : SlideFn) (h : List Step) (before : Board) :
    (take_action net slide h before).2 = h
    ∨ ∃ op : Fin 4, ¬ (slide before op).2 < 0
        ∧ (take_action net slide h before).2
            = h ++ [⟨(slide before op).2, (slide before op).1⟩] := by
  rcases ta_fold_cases net slide before opcode (-1, -1, -flt_max, fun _ => 0) with
    ⟨heq, _⟩ | ⟨op, l1, l2, _, hlegop, heq, _, _, _⟩
  · left
    have hta : ta_fold net slide before = (-1, -1, -flt_max, fun _ => 0) := by
      rw [ta_fold]; exact heq
    rw [take_action_eq, hta]
    simp
  · right
    refine ⟨op, hlegop, ?_⟩
    have hta : ta_fold net slide before = dir_quad net slide before op := by
      rw [ta_fold]; exact heq
    rw [take_action_eq, hta, dir_quad]
    rw [if_pos (by omega : ¬ ((op.val : ℕ) : ℤ) = -1)]

lemma close_loop_eq (history : List Step) (alpha : ℚ) (n_step : ℕ) :
    ∀ (k : ℕ) (net : Net),
      close_loop history alpha n_step k net
        = ((List.range k).reverse).foldl
            (fun acc i => step_adjust history alpha n_step i acc) net := by
  intro k
  induction k with
  | zero =>
    intro net
    simp [close_loop]
  | succ k ih =>
    intro net
    rw [close_loop, ih, List.range_succ, List.reverse_append]
    simp

lemma step_adjust_eq (history : List Step) (alpha : ℚ) (n_step i : ℕ) (net : Net) :
    step_adjust history alpha n_step i net
      = adjust_value net (history.getD i default).after
          (spec_target net history n_step i) alpha := by
  rw [step_adjust, spec_target, total_reward_code, total_reward_go_eq]
  by_cases h : i + n_step < history.length
  · rw [if_neg (not_le.mpr h), if_pos h]
    simp
  · rw [if_pos (not_lt.mp h), if_neg h]
    simp

lemma estimate_adjust (net : Net) (after : Board) (target : ℤ) (alpha : ℚ) :
    estimate_value (adjust_value net after target alpha) after
      = estimate_value net after
        + 32 * (alpha * ((target : ℚ) - estimate_value net after)) := by
  have h : ∀ t : Fin 32,
      (adjust_value net after target alpha) t (feature_index t.val after)
        = net t (feature_index t.val after)
          + alpha * ((target : ℚ) - estimate_value net after) := by
    intro t
    simp [adjust_value, Function.update_same]
  calc estimate_value (adjust_value net after target alpha) after
      = ∑ t : Fin 32, (adjust_value net after target alpha) t (feature_index t.val after) :=
        rfl
    _ = ∑ t : Fin 32,
          (net t (feature_index t.val after)
            + alpha * ((target : ℚ) - estimate_value net after)) :=
        Finset.sum_congr rfl (fun t _ => h t)
    _ = (∑ t : Fin 32, net t (feature_index t.val after))
          + 32 * (alpha * ((target : ℚ) - estimate_value net after)) := by
        rw [Finset.sum_add_distrib, Finset.sum_const, Finset.card_univ, Fintype.card_fin]
        simp [nsmul_eq_mul]
    _ = estimate_value net after
          + 32 * (alpha * ((target : ℚ) - estimate_value net after)) := rfl

lemma rndenv_null_iff (pv : ℕ) (after : Board) :
    ∀ perm : List (Fin 16),
      rndenv_take_action perm pv after = Action.null ↔ ∀ p ∈ perm, after p ≠ 0 := by
  intro perm
  induction perm with
  | nil => simp [rndenv_take_action]
  | cons pos rest ih =>
    by_cases h : after pos ≠ 0
    · rw [rndenv_take_action, if_pos h]
      constructor
      · intro h2 p hp
        rcases List.mem_cons.mp hp with rfl | hm
        · exact h
        · exact (ih.mp h2) p hm
      · intro h2
        exact ih.mpr (fun p hp => h2 p (List.mem_cons_of_mem _ hp))
    · rw [rndenv_take_action, if_neg h]
      constructor
      · intro h2
        cases h2
      · intro h2
        exact absurd (h2 pos (List.mem_cons_self _ _)) h

lemma rndenv_place (pv : ℕ) (after : Board) :
    ∀ perm : List (Fin 16), (∃ p ∈ perm, after p = 0) →
      ∃ pos : Fin 16, after pos = 0
        ∧ rndenv_take_action perm pv after
            = Action.place pos (if pv ≠ 0 then 1 else 2) := by
  intro perm
  induction perm with
  | nil =>
    rintro ⟨p, hp, _⟩
    cases hp
  | cons pos rest ih =>
    rintro ⟨p, hp, hp0⟩
    by_cases h : after pos ≠ 0
    · rw [rndenv_take_action, if_pos h]
      apply ih
      rcases List.mem_cons.mp hp with rfl | hm
      · exact absurd hp0 h
      · exact ⟨p, hm, hp0⟩
    · rw [rndenv_take_action, if_neg h]
      push_neg at h
      exact ⟨pos, h, rfl⟩

/-! ## Claim theorems -/

/-- Claim C4: one `adjust_value` call with `0 < α` strictly decreases the
error magnitude `|target - estimate|`, provided the estimate differs from
the target and `32α < 2` (the no-overshoot hypothesis: in exact arithmetic
the error is scaled by `1 - 32α`). -/
theorem adjust_value_error_decrease (net : Net) (after : Board) (target : ℤ) (alpha : ℚ)
    (h1 : 0 < alpha) (h2 : 32 * alpha < 2)
    (h3 : estimate_value net after ≠ (target : ℚ)) :
    |(target : ℚ) - estimate_value (adjust_value net after target alpha) after|
      < |(target : ℚ) - estimate_value net after| := by
  rw [estimate_adjust]
  set e := (target : ℚ) - estimate_value net after with he
  have he0 : e ≠ 0 := sub_ne_zero.mpr (Ne.symm h3)
  have hrw : (target : ℚ) - (estimate_value net after + 32 * (alpha * e))
      = (1 - 32 * alpha) * e := by
    rw [he]; ring
  rw [hrw, abs_mul]
  have h4 : |1 - 32 * alpha| < 1 := abs_lt.mpr ⟨by linarith, by linarith⟩
  have h5 : 0 < |e| := abs_pos.mpr he0
  calc |1 - 32 * alpha| * |e| < 1 * |e| := mul_lt_mul_of_pos_right h4 h5
    _ = |e| := one_mul _

/-- Witness for claim C4 at a concrete input. -/
theorem adjust_value_error_decrease_witness :
    ((0 : ℚ) < 1 / 64 ∧ 32 * (1 / 64 : ℚ) < 2 ∧ estimate_value net0 bz ≠ ((1 : ℤ) : ℚ))
    ∧ |((1 : ℤ) : ℚ) - estimate_value (adjust_value net0 bz 1 (1 / 64)) bz|
        < |((1 : ℤ) : ℚ) - estimate_value net0 bz| :=
  ⟨⟨by norm_num, by norm_num, by rw [estimate_net0]; norm_num⟩,
    adjust_value_error_decrease net0 bz 1 (1 / 64) (by norm_num) (by norm_num)
      (by rw [estimate_net0]; norm_num)⟩

/-- Claim C5: `close_episode` on an empty history or a zero learning rate
leaves every entry of every weight table unchanged. -/
theorem close_episode_noop (net : Net) (history : List Step) (alpha : ℚ) (n_step : ℕ)
    (h : history = [] ∨ alpha = 0) :
    close_episode net history alpha n_step = net := by
  unfold close_episode
  rcases h with h | h
  · rw [if_pos (by simp [h])]
  · by_cases hl : history.length = 0
    · rw [if_pos hl]
    · rw [if_neg hl, if_pos h]

/-- Witness for claim C5 at a concrete input. -/
theorem close_episode_noop_witness :
    (([] : List Step) = [] ∨ (1 : ℚ) = 0) ∧ close_episode net0 [] 1 1 = net0 :=
  ⟨Or.inl rfl, close_episode_noop net0 [] 1 1 (Or.inl rfl)⟩

/-- Claim C6: with every involved cell exponent below 31, `extract_feature`
(and likewise `extract_feature2`) is injective in the tuple's cells, and the
base-31 positional decomposition of the index recovers each cell exponent,
first cell the most significant digit. -/
theorem extract_feature_injective (x1 x2 : Board) (pa pb pc pd pe : Fin 16)
    (h1 : x1 pa < 31 ∧ x1 pb < 31 ∧ x1 pc < 31 ∧ x1 pd < 31 ∧ x1 pe < 31)
    (h2 : x2 pa < 31 ∧ x2 pb < 31 ∧ x2 pc < 31 ∧ x2 pd < 31 ∧ x2 pe < 31) :
    (extract_feature x1 pa pb pc pd pe = extract_feature x2 pa pb pc pd pe
        ↔ x1 pa = x2 pa ∧ x1 pb = x2 pb ∧ x1 pc = x2 pc ∧ x1 pd = x2 pd ∧ x1 pe = x2 pe)
    ∧ extract_feature x1 pa pb pc pd pe / (31 * 31 * 31 * 31) = x1 pa
    ∧ extract_feature x1 pa pb pc pd pe / (31 * 31 * 31) % 31 = x1 pb
    ∧ extract_feature x1 pa pb pc pd pe / (31 * 31) % 31 = x1 pc
    ∧ extract_feature x1 pa pb pc pd pe / 31 % 31 = x1 pd
    ∧ extract_feature x1 pa pb pc pd pe % 31 = x1 pe
    ∧ (extract_feature2 x1 pa pb pc pd = extract_feature2 x2 pa pb pc pd
        ↔ x1 pa = x2 pa ∧ x1 pb = x2 pb ∧ x1 pc = x2 pc ∧ x1 pd = x2 pd)
    ∧ extract_feature2 x1 pa pb pc pd / (31 * 31 * 31) = x1 pa
    ∧ extract_feature2 x1 pa pb pc pd / (31 * 31) % 31 = x1 pb
    ∧ extract_feature2 x1 pa pb pc pd / 31 % 31 = x1 pc
    ∧ extract_feature2 x1 pa pb pc pd % 31 = x1 pd := by
  obtain ⟨ha1, hb1, hc1, hd1, he1⟩ := h1
  obtain ⟨ha2, hb2, hc2, hd2, he2⟩ := h2
  unfold extract_feature extract_feature2
  refine ⟨⟨fun h => by omega, fun h => by omega⟩, by omega, by omega, by omega, by omega,
    by omega, ⟨fun h => by omega, fun h => by omega⟩, by omega, by omega, by omega, by omega⟩

/-- Witness for claim C6 at a concrete input. -/
theorem extract_feature_injective_witness :
    ((bz 0 < 31 ∧ bz 1 < 31 ∧ bz 2 < 31 ∧ bz 3 < 31 ∧ bz 4 < 31)
      ∧ (b0 0 < 31 ∧ b0 1 < 31 ∧ b0 2 < 31 ∧ b0 3 < 31 ∧ b0 4 < 31))
    ∧ (extract_feature bz 0 1 2 3 4 = extract_feature b0 0 1 2 3 4
        ↔ bz 0 = b0 0 ∧ bz 1 = b0 1 ∧ bz 2 = b0 2 ∧ bz 3 = b0 3 ∧ bz 4 = b0 4) :=
  ⟨⟨by decide, by decide⟩,
    (extract_feature_injective bz b0 0 1 2 3 4 (by decide) (by decide)).1⟩

/-- Claim C10: a single `adjust_value` call touches, in each of the 32
tables, exactly the entry at that table's feature index, adding to each the
same scalar `α * (target - estimate)` computed from the pre-update network;
every other entry is unchanged. -/
theorem adjust_value_frame (net : Net) (after : Board) (target : ℤ) (alpha : ℚ)
    (t : Fin 32) :
    (adjust_value net after target alpha) t (feature_index t.val after)
      = net t (feature_index t.val after)
        + alpha * ((target : ℚ) - estimate_value net after)
    ∧ ∀ j : ℕ, j ≠ feature_index t.val after →
        (adjust_value net after target alpha) t j = net t j := by
  constructor
  · simp [adjust_value, Function.update_same]
  · intro j hj
    simp [adjust_value, Function.update_noteq hj]

/-- Witness for claim C10 at a concrete input. -/
theorem adjust_value_frame_witness :
    (5 ≠ feature_index (0 : Fin 32).val bz)
    ∧ (adjust_value net0 bz 1 (1 / 2)) 0 5 = net0 0 5 :=
  ⟨by decide, (adjust_value_frame net0 bz 1 (1 / 2) 0).2 5 (by decide)⟩

/-- Claim C2 (amended): on a non-empty history with `α > 0` and horizon
`n ≥ 1`, `close_episode` coincides with the backward pass that adjusts the
terminal afterstate toward 0 and every earlier step `i`, most recent first,
toward the rewards of steps `i+1 … i+n` (truncated at the end of the
history) plus — exactly when step `i+n` exists — the current estimate of its
afterstate, the bootstrapped sum being truncated toward zero to an integer
(the `int target` parameter of `adjust_value`). -/
theorem close_episode_nstep_spec (net : Net) (history : List Step) (alpha : ℚ) (n : ℕ)
    (hh : history ≠ []) (ha : 0 < alpha) (_hn : 1 ≤ n) :
    close_episode net history alpha n = spec_close net history alpha n := by
  have hlen : ¬ history.length = 0 := by simpa using hh
  have ha' : ¬ alpha = 0 := ne_of_gt ha
  rw [close_episode, spec_close, if_neg hlen, if_neg ha',
    if_neg (by simp [hh, ha'])]
  rw [close_loop_eq]
  have hf : (fun (acc : Net) (i : ℕ) => step_adjust history alpha n i acc)
      = fun (acc : Net) (i : ℕ) =>
          adjust_value acc (history.getD i default).after (spec_target acc history n i)
            alpha := by
    funext acc i
    exact step_adjust_eq history alpha n i acc
  rw [hf]

/-- Witness for claim C2 at a concrete input. -/
theorem close_episode_nstep_spec_witness :
    (([⟨0, bz⟩] : List Step) ≠ [] ∧ (0 : ℚ) < 1 / 2 ∧ 1 ≤ 1)
    ∧ close_episode net0 [⟨0, bz⟩] (1 / 2) 1 = spec_close net0 [⟨0, bz⟩] (1 / 2) 1 :=
  ⟨⟨by simp, by norm_num, le_refl 1⟩,
    close_episode_nstep_spec net0 [⟨0, bz⟩] (1 / 2) 1 (by simp) (by norm_num) (le_refl 1)⟩

/-- Counterexample to claim C2 as stated: with weights all 1, a two-step
history of zero rewards on the all-empty board, `α = 1/3` and `n = 1`, the
non-terminal update target is the integer truncation `-309` of the
bootstrapped sum `-928/3`, not the exact sum the claim requires: entry
`(0, 0)` of the weight tables ends at `-86/9` rather than `-29/3`. -/
theorem close_episode_claim_cex :
    close_episode net1 hist2 (1 / 3) 1 0 0 ≠ claimed_close net1 hist2 (1 / 3) 1 0 0 := by
  have hf0 : feature_index (0 : Fin 32).val bz = 0 := by decide
  have hest1 : estimate_value (adjust_value net1 bz 0 (1 / 3)) bz = -928 / 3 := by
    rw [estimate_adjust, estimate_net1]
    norm_num
  have hval1 : (adjust_value net1 bz 0 (1 / 3)) 0 0 = -29 / 3 := by
    have h := adjust_value_at net1 bz 0 (1 / 3) 0
    rw [hf0] at h
    rw [h, estimate_net1]
    norm_num [net1]
  have hceil : float_to_int (0 + -928 / 3 : ℚ) = -309 := by
    rw [float_to_int, if_pos (by norm_num)]
    rw [Int.ceil_eq_iff]
    norm_num
  -- the value computed by `close_episode`
  have hcode : close_episode net1 hist2 (1 / 3) 1 0 0 = -86 / 9 := by
    rw [close_episode, if_neg (by simp [hist2]), if_neg (by norm_num)]
    have h1 : ((hist2.getLast?).getD default).after = bz := rfl
    have h2 : hist2.length - 1 = 1 := rfl
    rw [h1, h2, close_loop, close_loop]
    rw [step_adjust_eq]
    have h3 : (hist2.getD 0 default).after = bz := rfl
    have h4 : spec_target (adjust_value net1 bz 0 (1 / 3)) hist2 1 0 = -309 := by
      rw [spec_target, if_pos (by simp [hist2])]
      have h5 : (((hist2.drop 1).take 1).map Step.reward).sum = 0 := rfl
      have h6 : (hist2.getD 1 default).after = bz := rfl
      rw [h5, h6, hest1]
      exact_mod_cast hceil
    rw [h3, h4]
    have h := adjust_value_at (adjust_value net1 bz 0 (1 / 3)) bz (-309) (1 / 3) 0
    rw [hf0] at h
    rw [h, hest1, hval1]
    norm_num
  -- the value the claim as written would require
  have hclaim : claimed_close net1 hist2 (1 / 3) 1 0 0 = -29 / 3 := by
    rw [claimed_close, if_neg (by simp [hist2])]
    have h1 : ((hist2.getLast?).getD default).after = bz := rfl
    have h2 : hist2.length - 1 = 1 := rfl
    rw [h1, h2]
    have h3 : (List.range 1).reverse = [0] := rfl
    rw [h3, List.foldl_cons, List.foldl_nil]
    have h4 : (hist2.getD 0 default).after = bz := rfl
    have h5 : claimed_targetQ (adjust_value net1 bz 0 (1 / 3)) hist2 1 0 = -928 / 3 := by
      rw [claimed_targetQ, if_pos (by simp [hist2])]
      have h6 : (((hist2.drop 1).take 1).map Step.reward).sum = 0 := rfl
      have h7 : (hist2.getD 1 default).after = bz := rfl
      rw [h6, h7, hest1]
      norm_num
    rw [h4, h5]
    have h := adjust_valueQ_at (adjust_value net1 bz 0 (1 / 3)) bz (-928 / 3) (1 / 3) 0
    rw [hf0] at h
    rw [h, hest1, hval1]
    norm_num
  rw [hcode, hclaim]
  norm_num

/-- Claim C3: when some direction is legal, `take_action` returns the slide
action of a legal direction whose score `reward + expect_value(afterstate)`
is maximal among the legal directions, strictly beats every legal direction
earlier in the enumeration order (first-encountered tie-break), and appends
exactly the step of that direction's reward and afterstate to the history.
The hypothesis `hbound` renders, in exact arithmetic, the fact that every
float score exceeds the scan's `-1 + -FLT_MAX` starting sentinel. -/
theorem take_action_greedy_spec (net : Net) (slide : SlideFn) (history : List Step)
    (before : Board)
    (hlegal : ∃ op : Fin 4, ¬ (slide before op).2 < 0)
    (hbound : ∀ op : Fin 4, ¬ (slide before op).2 < 0 →
        (-1 : ℚ) + -flt_max < dir_score net slide before op) :
    ∃ op : Fin 4, ¬ (slide before op).2 < 0
      ∧ (take_action net slide history before).1 = Action.slide op
      ∧ (∀ op2 : Fin 4, ¬ (slide before op2).2 < 0 →
          dir_score net slide before op2 ≤ dir_score net slide before op)
      ∧ (∀ op2 : Fin 4, op2 < op → ¬ (slide before op2).2 < 0 →
          dir_score net slide before op2 < dir_score net slide before op)
      ∧ (take_action net slide history before).2
          = history ++ [⟨(slide before op).2, (slide before op).1⟩] := by
  rcases ta_fold_cases net slide before opcode (-1, -1, -flt_max, fun _ => 0) with
    ⟨_, hub⟩ | ⟨op, l1, l2, hdec, hlegop, heq, _, hpre, hpost⟩
  · exfalso
    obtain ⟨op0, hop0⟩ := hlegal
    have h1 := hub op0 (mem_opcode op0) hop0
    have h2 := hbound op0 hop0
    norm_num at h1
    linarith
  · obtain ⟨_, hd2⟩ := opcode_decomp op l1 l2 hdec
    have hta : ta_fold net slide before = dir_quad net slide before op := by
      rw [ta_fold]; exact heq
    refine ⟨op, hlegop, ?_, ?_, ?_, ?_⟩
    · rw [take_action_eq, hta]
      show action_slide ((op.val : ℕ) : ℤ) = Action.slide op
      exact action_slide_fin op
    · intro op2 h2
      have hmem := mem_opcode op2
      rw [hdec] at hmem
      rcases List.mem_append.mp hmem with hm | hm
      · exact le_of_lt (hpre op2 hm h2)
      · rcases List.mem_cons.mp hm with rfl | hm2
        · exact le_refl _
        · exact hpost op2 hm2 h2
    · intro op2 hlt h2
      have hmem := mem_opcode op2
      rw [hdec] at hmem
      rcases List.mem_append.mp hmem with hm | hm
      · exact hpre op2 hm h2
      · rcases List.mem_cons.mp hm with rfl | hm2
        · exact absurd hlt (lt_irrefl op2)
        · exact absurd hlt (not_lt.mpr (le_of_lt (hd2 op2 hm2)))
    · rw [take_action_eq, hta, dir_quad]
      rw [if_pos (by omega : ¬ ((op.val : ℕ) : ℤ) = -1)]

/-- Witness for claim C3 at a concrete input. -/
theorem take_action_greedy_spec_witness :
    ((∃ op : Fin 4, ¬ (cslide b0 op).2 < 0)
      ∧ ∀ op : Fin 4, ¬ (cslide b0 op).2 < 0 →
          (-1 : ℚ) + -flt_max < dir_score net0 cslide b0 op)
    ∧ ∃ op : Fin 4, ¬ (cslide b0 op).2 < 0
        ∧ (take_action net0 cslide [] b0).1 = Action.slide op
        ∧ (∀ op2 : Fin 4, ¬ (cslide b0 op2).2 < 0 →
            dir_score net0 cslide b0 op2 ≤ dir_score net0 cslide b0 op)
        ∧ (∀ op2 : Fin 4, op2 < op → ¬ (cslide b0 op2).2 < 0 →
            dir_score net0 cslide b0 op2 < dir_score net0 cslide b0 op)
        ∧ (take_action net0 cslide [] b0).2
            = [] ++ [⟨(cslide b0 op).2, (cslide b0 op).1⟩] := by
  have hb : ∀ op : Fin 4, ¬ (cslide b0 op).2 < 0 →
      (-1 : ℚ) + -flt_max < dir_score net0 cslide b0 op := by
    intro op hop
    fin_cases op
    · show (-1 : ℚ) + -flt_max < ((5 : ℤ) : ℚ) + expect_value net0 cslide b0
      rw [expect_net0_cslide_b0]
      norm_num [flt_max]
    · exact absurd (by decide) hop
    · exact absurd (by decide) hop
    · exact absurd (by decide) hop
  exact ⟨⟨⟨0, by decide⟩, hb⟩,
    take_action_greedy_spec net0 cslide [] b0 ⟨0, by decide⟩ hb⟩

/-- Claim C7: on a board where all four directions return the `-1` sentinel,
`take_action` returns the null action and leaves the history unchanged. -/
theorem take_action_no_legal_null (net : Net) (slide : SlideFn) (history : List Step)
    (before : Board) (h : ∀ op : Fin 4, (slide before op).2 = -1) :
    (take_action net slide history before).1 = Action.null
      ∧ (take_action net slide history before).2 = history := by
  rcases ta_fold_cases net slide before opcode (-1, -1, -flt_max, fun _ => 0) with
    ⟨heq, _⟩ | ⟨op, _, _, _, hlegop, _, _, _, _⟩
  · have hta : ta_fold net slide before = (-1, -1, -flt_max, fun _ => 0) := by
      rw [ta_fold]; exact heq
    rw [take_action_eq, hta]
    refine ⟨?_, ?_⟩
    · show action_slide (-1) = Action.null
      rw [action_slide, dif_neg (by decide)]
    · simp
  · exact absurd (by rw [h op]; norm_num) hlegop

/-- Witness for claim C7 at a concrete input. -/
theorem take_action_no_legal_null_witness :
    (∀ op : Fin 4, (cslide_none bz op).2 = -1)
    ∧ ((take_action net0 cslide_none [] bz).1 = Action.null
        ∧ (take_action net0 cslide_none [] bz).2 = []) :=
  ⟨by decide, take_action_no_legal_null net0 cslide_none [] bz (by decide)⟩

/-- Claim C9: every step recorded in the history has a nonnegative reward,
and the invariant is preserved: `open_episode` clears the history,
`take_action` either leaves the history unchanged or appends exactly the
step of a legal direction (whose reward is nonnegative); `close_episode`
only reads the history, which its embedding returns unchanged by type. -/
theorem history_reward_nonneg_invariant :
    (∀ h : List Step, ∀ s ∈ open_episode h, (0 : ℤ) ≤ s.reward)
    ∧ (∀ (net : Net) (slide : SlideFn) (h : List Step) (before : Board),
        (∀ s ∈ h, (0 : ℤ) ≤ s.reward) →
        ∀ s ∈ (take_action net slide h before).2, (0 : ℤ) ≤ s.reward)
    ∧ (∀ (net : Net) (slide : SlideFn) (h : List Step) (before : Board),
        (take_action net slide h before).2 = h
        ∨ ∃ op : Fin 4, ¬ (slide before op).2 < 0
            ∧ (take_action net slide h before).2
                = h ++ [⟨(slide before op).2, (slide before op).1⟩]) := by
  refine ⟨?_, ?_, ?_⟩
  · intro h s hs
    rw [open_episode] at hs
    cases hs
  · intro net slide h before hinv s hs
    rcases take_action_hist_cases net slide h before with hcase | ⟨op, hlegop, hcase⟩
    · rw [hcase] at hs
      exact hinv s hs
    · rw [hcase] at hs
      rcases List.mem_append.mp hs with hm | hm
      · exact hinv s hm
      · have hseq : s = ⟨(slide before op).2, (slide before op).1⟩ := by
          simpa using hm
        rw [hseq]
        exact not_lt.mp hlegop
  · intro net slide h before
    exact take_action_hist_cases net slide h before

/-- Witness for claim C9 at a concrete input. -/
theorem history_reward_nonneg_invariant_witness :
    (∀ s ∈ ([] : List Step), (0 : ℤ) ≤ s.reward)
    ∧ ∀ s ∈ (take_action net0 cslide [] b0).2, (0 : ℤ) ≤ s.reward :=
  ⟨by simp, history_reward_nonneg_invariant.2.1 net0 cslide [] b0 (by simp)⟩

/-- Counterexample to claim C1 as stated: with all-zero weights, a slide
function whose direction 0 is always legal with reward 5, and a board with a
single empty cell, the code's `expect_value` is 0 — it accumulates only the
estimate component of the best (reward, estimate) pair — while the claimed
sum of `(0.9·best1 + 0.1·best2)/numEmpty` with `best = max(reward +
estimate)` would be 5. -/
theorem expect_value_claim_cex :
    expect_value net0 cslide b0 ≠ claimed_expect_value net0 cslide b0 := by
  rw [expect_net0_cslide_b0, claimed_expect_net0_cslide_b0]
  norm_num

/-- Claim C1 (amended): `expect_value` equals the sum, over the empty cells,
of `(0.9 · best1 + 0.1 · best2) / numEmpty`, where `best_t` is the
*estimate component* of the legal (reward, estimate) pair selected by the
strict-improvement scan maximizing `reward + estimate` (first-encountered
direction wins ties), `-FLT_MAX` when no direction is legal; the immediate
slide reward enters only the ranking, not the accumulated value. The second
conjunct shows the selected pair does attain the maximum of
`reward + estimate` among the legal pairs, under the exact-arithmetic
rendering `hyp` of all float scores exceeding the `-1 + -FLT_MAX` sentinel. -/
theorem expect_value_amended_spec (net : Net) (slide : SlideFn) (after : Board)
    (hyp : ∀ i : Fin 16, after i = 0 → ∀ c ∈ ([1, 2] : List ℕ),
        ∀ p ∈ legal_pairs net slide (Function.update after i c),
          (-1 : ℚ) + -flt_max < pair_sum p) :
    expect_value net slide after
      = (((List.finRange 16).filter (fun i => decide (after i = 0))).map
          (fun i =>
            ((9 / 10 : ℚ) * (spec_best (legal_pairs net slide (Function.update after i 1))).2
              + (1 / 10 : ℚ)
                  * (spec_best (legal_pairs net slide (Function.update after i 2))).2)
            / ((((List.finRange 16).filter (fun i => decide (after i = 0))).length : ℚ)))).sum
    ∧ ∀ i : Fin 16, after i = 0 → ∀ c ∈ ([1, 2] : List ℕ),
        (legal_pairs net slide (Function.update after i c) = [] →
          spec_best (legal_pairs net slide (Function.update after i c)) = (-1, -flt_max))
        ∧ (legal_pairs net slide (Function.update after i c) ≠ [] →
            spec_best (legal_pairs net slide (Function.update after i c))
                ∈ legal_pairs net slide (Function.update after i c)
            ∧ ∀ p ∈ legal_pairs net slide (Function.update after i c),
                pair_sum p
                  ≤ pair_sum (spec_best (legal_pairs net slide (Function.update after i c)))) := by
  refine ⟨expect_value_eq_sum net slide after, ?_⟩
  intro i hi c hc
  refine ⟨?_, ?_⟩
  · intro hnil
    rw [spec_best, hnil]
    rfl
  · intro hnil
    have hgt : ∀ p ∈ legal_pairs net slide (Function.update after i c),
        pair_sum ((-1 : ℤ), -flt_max) < pair_sum p := by
      intro p hp
      have h2 := hyp i hi c hc p hp
      have hps : pair_sum ((-1 : ℤ), -flt_max) = (-1 : ℚ) + -flt_max := by
        rw [pair_sum]; norm_num
      rw [hps]
      exact h2
    refine ⟨spec_best_mem _ hnil hgt, ?_⟩
    intro p hp
    rw [spec_best]
    exact foldl_best_ub _ _ p hp

/-- Witness for claim C1 at a concrete input. -/
theorem expect_value_amended_spec_witness :
    (∀ i : Fin 16, b0 i = 0 → ∀ c ∈ ([1, 2] : List ℕ),
        ∀ p ∈ legal_pairs net0 cslide (Function.update b0 i c),
          (-1 : ℚ) + -flt_max < pair_sum p)
    ∧ expect_value net0 cslide b0
        = (((List.finRange 16).filter (fun i => decide (b0 i = 0))).map
            (fun i =>
              ((9 / 10 : ℚ) * (spec_best (legal_pairs net0 cslide (Function.update b0 i 1))).2
                + (1 / 10 : ℚ)
                    * (spec_best (legal_pairs net0 cslide (Function.update b0 i 2))).2)
              / ((((List.finRange 16).filter (fun i => decide (b0 i = 0))).length : ℚ)))).sum := by
  have hh : ∀ i : Fin 16, b0 i = 0 → ∀ c ∈ ([1, 2] : List ℕ),
      ∀ p ∈ legal_pairs net0 cslide (Function.update b0 i c),
        (-1 : ℚ) + -flt_max < pair_sum p := by
    intro i hi c hc p hp
    rw [legal_pairs_net0_cslide] at hp
    have hp2 : p = ((5 : ℤ), (0 : ℚ)) := by simpa using hp
    rw [hp2, pair_sum]
    norm_num [flt_max]
  exact ⟨hh, (expect_value_amended_spec net0 cslide b0 hh).1⟩

/-- Claim C8: for any shuffle order containing every position and any draw of
the tile distribution, the environment's `take_action` returns the null
action exactly when the board has no empty cell, and otherwise places a tile
of exponent 1 or exponent 2 on some empty cell. -/
theorem rndenv_take_action_spec (after : Board) (perm : List (Fin 16)) (pv : ℕ)
    (hperm : ∀ p : Fin 16, p ∈ perm) :
    (rndenv_take_action perm pv after = Action.null ↔ ∀ i : Fin 16, after i ≠ 0)
    ∧ ((∃ i : Fin 16, after i = 0) →
        ∃ pos : Fin 16, after pos = 0
          ∧ (rndenv_take_action perm pv after = Action.place pos 1
              ∨ rndenv_take_action perm pv after = Action.place pos 2)) := by
  constructor
  · rw [rndenv_null_iff]
    constructor
    · intro h i
      exact h i (hperm i)
    · intro h p _
      exact h p
  · rintro ⟨i, hi⟩
    obtain ⟨pos, hpos, heq⟩ := rndenv_place pv after perm ⟨i, hperm i, hi⟩
    refine ⟨pos, hpos, ?_⟩
    by_cases hpv : pv ≠ 0
    · left
      rw [heq, if_pos hpv]
    · right
      rw [heq, if_neg hpv]

/-- Witness for claim C8 at a concrete input. -/
theorem rndenv_take_action_spec_witness :
    (∀ p : Fin 16, p ∈ List.finRange 16)
    ∧ ((rndenv_take_action (List.finRange 16) 3 b0 = Action.null ↔ ∀ i : Fin 16, b0 i ≠ 0)
        ∧ ((∃ i : Fin 16, b0 i = 0) →
            ∃ pos : Fin 16, b0 pos = 0
              ∧ (rndenv_take_action (List.finRange 16) 3 b0 = Action.place pos 1
                  ∨ rndenv_take_action (List.finRange 16) 3 b0 = Action.place pos 2))) :=
  ⟨by decide, rndenv_take_action_spec b0 (List.finRange 16) 3 (by decide)⟩

end TD2584
